import Mathlib

/-!
Verification of the rcs2git conversion pipeline (rcs2git.py).

This file gives a shallow embedding of the algorithmic core of the program:
the RCS timestamp parser `parse_rcs_date`, the commit-coalescing pass
`coalesce_commits`, the single-history special case of `main`, the
fast-import emitter (`emit_blob`, `emit_commit`, `emit_all`) threaded
through an explicit `EmitterState`, and the history-collection loop of
`collect_histories` / the fatal-exit check of `main`.

Python strings are modelled as `List Char` where character-level operations
matter (the date parser) and as `String` elsewhere; Python `set` objects are
modelled as `Finset String`; Python dicts are modelled as association lists
where an insert prepends the new binding, so that lookup (first match wins)
has exactly the overwrite semantics of dict assignment.  Machine I/O
(subprocess calls to rlog/co/git, stdout) is out of the embedded core:
the emitter accumulates the stream it would print as a list of `StreamOp`
values, and the external ISO-date parser `datetime.datetime.fromisoformat`
is a parameter of the date parser.
-/

namespace Rcs2Git

/-! ### Timestamp parsing (`parse_rcs_date`, rcs2git.py lines 39-69) -/

/-- Whitespace characters stripped by Python `str.strip()` (ASCII range). -/
def isPySpace (c : Char) : Bool :=
  c = ' ' || c = '\t' || c = '\n' || c = '\r' || c = '\x0b' || c = '\x0c'

/-- Drop leading Python whitespace. -/
def trimLeft : List Char → List Char
  | [] => []
  | c :: cs => if isPySpace c then trimLeft cs else c :: cs

/-- Python `str.strip()`: drop whitespace at both ends. -/
def pyStrip (s : List Char) : List Char :=
  ((trimLeft s.reverse).reverse) |> trimLeft

/-- Python `str.split(".")` (nonempty separator semantics: `""` splits to
`[""]`, adjacent dots give empty fields). -/
def splitDot : List Char → List (List Char)
  | [] => [[]]
  | c :: cs =>
    if c = '.' then [] :: splitDot cs
    else
      match splitDot cs with
      | [] => [[c]]
      | p :: ps => (c :: p) :: ps

/-- Digit run of a CPython `int()` literal: decimal digits, single
underscores allowed between digits.  `acc` is the value of the digits
already consumed. -/
def pyDigits : List Char → Nat → Option Nat
  | [], acc => some acc
  | '_' :: c :: cs, acc =>
    if c.isDigit then pyDigits cs (acc * 10 + (c.toNat - 48)) else none
  | ['_'], _ => none
  | c :: cs, acc =>
    if c.isDigit then pyDigits cs (acc * 10 + (c.toNat - 48)) else none

/-- Python `int(s)` on a decimal string: strip whitespace, optional sign,
then a nonempty digit run (ASCII digits; underscores between digits).
Returns `none` where `int()` raises `ValueError`. -/
def pyInt? (s : List Char) : Option Int :=
  match pyStrip s with
  | [] => none
  | '+' :: c :: cs =>
    if c.isDigit then (pyDigits cs (c.toNat - 48)).map Int.ofNat else none
  | '-' :: c :: cs =>
    if c.isDigit then (pyDigits cs (c.toNat - 48)).map (fun n => -(n : Int)) else none
  | c :: cs =>
    if c.isDigit then (pyDigits cs (c.toNat - 48)).map Int.ofNat else none

/-- Proleptic-Gregorian leap-year test (matches Python `calendar`). -/
def isLeap (y : Nat) : Bool :=
  y % 4 = 0 && (y % 100 ≠ 0 || y % 400 = 0)

/-- Length of a month, as validated by `datetime.datetime`. -/
def daysInMonth (y m : Nat) : Nat :=
  match m with
  | 1 => 31 | 2 => if isLeap y then 29 else 28 | 3 => 31 | 4 => 30
  | 5 => 31 | 6 => 30 | 7 => 31 | 8 => 31 | 9 => 30 | 10 => 31
  | 11 => 30 | 12 => 31 | _ => 0

/-- Days in the months strictly before month `m` of a non-leap year. -/
def cumMonthDays (m : Nat) : Nat :=
  match m with
  | 1 => 0 | 2 => 31 | 3 => 59 | 4 => 90 | 5 => 120 | 6 => 151
  | 7 => 181 | 8 => 212 | 9 => 243 | 10 => 273 | 11 => 304 | 12 => 334
  | _ => 0

/-- Python `datetime.date(y, m, d).toordinal()`: day number counting
0001-01-01 as 1. -/
def toOrdinal (y m d : Nat) : Nat :=
  365 * (y - 1) + (y - 1) / 4 + (y - 1) / 400 - (y - 1) / 100
    + cumMonthDays m + (if 2 < m && isLeap y then 1 else 0) + (d - 1) + 1

/-- Unix timestamp of a UTC datetime with integral seconds; `719163` is the
ordinal of 1970-01-01, exactly the arithmetic done by
`datetime.timestamp()` on a timezone-aware value. -/
def utcTimestamp (y mo d h mi s : Nat) : Int :=
  ((toOrdinal y mo d : Int) - 719163) * 86400
    + (h : Int) * 3600 + (mi : Int) * 60 + (s : Int)

/-- Field ranges accepted by the `datetime.datetime` constructor. -/
def pyDatetimeOK (y mo d h mi s : Int) : Bool :=
  1 ≤ y && y ≤ 9999 && 1 ≤ mo && mo ≤ 12 && 1 ≤ d
    && d ≤ (daysInMonth y.toNat mo.toNat : Int)
    && 0 ≤ h && h ≤ 23 && 0 ≤ mi && mi ≤ 59 && 0 ≤ s && s ≤ 59

/-- External inputs of `parse_rcs_date`: `iso` models the composite
`int(datetime.datetime.fromisoformat(s).replace(tzinfo=utc).timestamp())`
(`none` where `fromisoformat` raises), and `now` models `int(time.time())`
at the moment of the call. -/
structure DateParseEnv where
  iso : List Char → Option Int
  now : Int

/-- Shallow embedding of `parse_rcs_date` (rcs2git.py lines 39-69).
Split the stripped field on dots; with fewer than six parts try the
generic ISO parse and fall back to the current time; with six or more
parts, prepend `19` to a one- or two-digit year, convert the first six
parts with `int()` and build a UTC datetime, falling back to the current
time if any conversion or the datetime constructor raises. -/
def parse_rcs_date (env : DateParseEnv) (s : List Char) : Int :=
  let parts := splitDot (pyStrip s)
  if parts.length < 6 then
    match env.iso s with
    | some t => t
    | none => env.now
  else
    let y0 := parts.getD 0 []
    let y := if y0.length < 3 then '1' :: '9' :: y0 else y0
    match pyInt? y, pyInt? (parts.getD 1 []), pyInt? (parts.getD 2 []),
          pyInt? (parts.getD 3 []), pyInt? (parts.getD 4 []),
          pyInt? (parts.getD 5 []) with
    | some yy, some mo, some d, some h, some mi, some ss =>
      if pyDatetimeOK yy mo d h mi ss then
        utcTimestamp yy.toNat mo.toNat d.toNat h.toNat mi.toNat ss.toNat
      else env.now
    | _, _, _, _, _, _ => env.now

/-- The six-or-more-part branch of `parse_rcs_date` as a fallible
conversion: the try-block of rcs2git.py lines 53-69 (year widening,
`int()` conversion of the first six parts, `datetime` construction)
returning `none` exactly where `int()` or the `datetime` constructor
raises and the code falls into the `except` handler. -/
def sixPartTimestamp? (s : List Char) : Option Int :=
  let parts := splitDot (pyStrip s)
  let y0 := parts.getD 0 []
  let y := if y0.length < 3 then '1' :: '9' :: y0 else y0
  match pyInt? y, pyInt? (parts.getD 1 []), pyInt? (parts.getD 2 []),
        pyInt? (parts.getD 3 []), pyInt? (parts.getD 4 []),
        pyInt? (parts.getD 5 []) with
  | some yy, some mo, some d, some h, some mi, some ss =>
    if pyDatetimeOK yy mo d h mi ss then
      some (utcTimestamp yy.toNat mo.toNat d.toNat h.toNat mi.toNat ss.toNat)
    else none
  | _, _, _, _, _, _ => none

/-- The "six dot-separated integers" field shape described by the spec for
RCS dates. -/
def matchesSixIntShape (s : List Char) : Bool :=
  (splitDot (pyStrip s)).length = 6
    && (splitDot (pyStrip s)).all (fun p => (pyInt? p).isSome)

/-! ### The coalescing engine (`coalesce_commits`, rcs2git.py lines 535-600) -/

/-- One flattened per-file revision, the `SingleFileCommit` class of
rcs2git.py (lines 317-330).  Python `set` fields become `Finset String`. -/
structure SingleFileCommit where
  filename : String
  rcs_path : String
  rev_id : String
  author : String
  date_ts : Int
  log : String
  symbols : Finset String
  branches : List String
  content : String
deriving DecidableEq

instance : Inhabited SingleFileCommit :=
  ⟨⟨"", "", "", "", 0, "", ∅, [], ""⟩⟩

/-- One coalesced commit, the dict
`{date_ts, author, log, files, symbols}` built by `coalesce_commits`. -/
structure CommitGroup where
  date_ts : Int
  author : String
  log : String
  files : List SingleFileCommit
  symbols : Finset String
deriving DecidableEq

/-- The inner `while j < n` scan of `coalesce_commits` (lines 554-582).
`rest` is the suffix `single_commits[j:]`, `j` the Python index of its
head, `files`/`syms` the group built so far, and `maxIdx` the running
maximum of the original indices of the group's members — under CPython
object identity `single_commits.index(f)` returns exactly the position at
which `f` was scanned, so line 598's
`max(single_commits.index(f) for f in group_files)` equals this running
maximum.  Rejected candidates are skipped (`j += 1; continue`); the scan
stops at the first candidate beyond the fuzz window. -/
def scanGroup (fuzz : Int) (symCheck : Bool) (base : SingleFileCommit) :
    List SingleFileCommit → Nat → List SingleFileCommit → Nat → Finset String →
    List SingleFileCommit × Nat × Finset String
  | [], _, files, maxIdx, syms => (files, maxIdx, syms)
  | cand :: rest, j, files, maxIdx, syms =>
    if base.date_ts + fuzz < cand.date_ts then
      (files, maxIdx, syms)
    else if cand.author ≠ base.author ∨ cand.log ≠ base.log then
      scanGroup fuzz symCheck base rest (j + 1) files maxIdx syms
    else if symCheck ∧ ¬ (syms ⊆ cand.symbols ∨ cand.symbols ⊆ syms) then
      scanGroup fuzz symCheck base rest (j + 1) files maxIdx syms
    else if cand.filename ∈ files.map (fun f => f.filename) then
      scanGroup fuzz symCheck base rest (j + 1) files maxIdx syms
    else
      scanGroup fuzz symCheck base rest (j + 1) (files ++ [cand]) (max maxIdx j)
        (syms ∪ cand.symbols)

/-- The outer `while i < n` loop of `coalesce_commits` (lines 550-599):
anchor at index `i`, scan the window, emit the group, and resume at
`max_idx + 1`.  The outer loop is driven by explicit structural fuel;
since the resume index grows by at least one per iteration, fuel
`n - i` (hence `n` at the top-level entry) always suffices, and the
fuel-exhausted branch is unreachable under that bound
(`coalesceFrom_fuel_irrelevant` below). -/
def coalesceFrom (cs : List SingleFileCommit) (fuzz : Int) (symCheck : Bool) :
    Nat → Nat → List CommitGroup
  | 0, _ => []
  | fuel + 1, i =>
    if h : i < cs.length then
      let base := cs.get ⟨i, h⟩
      let r := scanGroup fuzz symCheck base (cs.drop (i + 1)) (i + 1) [base] i
        base.symbols
      { date_ts := base.date_ts, author := base.author, log := base.log,
        files := r.1, symbols := r.2.2 }
        :: coalesceFrom cs fuzz symCheck fuel (r.2.1 + 1)
    else []

/-- Shallow embedding of `coalesce_commits` (rcs2git.py lines 535-600).
The unused `warn_missing_authors` parameter of the Python signature is
omitted. -/
def coalesce_commits (cs : List SingleFileCommit) (fuzz : Int)
    (symCheck : Bool) : List CommitGroup :=
  coalesceFrom cs fuzz symCheck cs.length 0

/-- The single-history special case of `main` (rcs2git.py lines 775-787):
when exactly one RCS file was found, every per-file revision becomes its
own commit dict and `coalesce_commits` is not invoked. -/
def singleHistoryCommits (sfcs : List SingleFileCommit) : List CommitGroup :=
  sfcs.map fun s =>
    { date_ts := s.date_ts, author := s.author, log := s.log,
      files := [s], symbols := s.symbols }

/-! ### The fast-import emitter (`FastImportEmitter` / `emit_all`,
rcs2git.py lines 336-444 and 603-653) -/

/-- Association-list lookup, first match wins.  Dicts are modelled as
association lists where assignment prepends, so this has exactly the
semantics of Python dict lookup. -/
def lookupA {α β : Type} [DecidableEq α] (k : α) : List (α × β) → Option β
  | [] => none
  | (k', v) :: rest => if k = k' then some v else lookupA k rest

/-- Python truthiness filter on an optional mark (`if bm:` /
`if parent_mark:` treat both `None` and `0` as false). -/
def pyTruthy (o : Option Nat) : Option Nat :=
  match o with
  | some p => if p = 0 then none else some p
  | none => none

/-- The mutable attributes of `FastImportEmitter` that the emission
algorithms read and write (`_next_mark`, `_blob_marks`,
`_last_commit_mark_for_file`), threaded explicitly. -/
structure EmitterState where
  next_mark : Nat
  blob_marks : List ((String × String) × Nat)
  last_commit_mark_for_file : List (String × Nat)
deriving DecidableEq

/-- `FastImportEmitter.__init__`: the mark counter starts at 1 and both
tables start empty. -/
def initState : EmitterState := ⟨1, [], []⟩

/-- Configuration flags of the emitter that the embedded code reads.
`author_map` models the author lookup table; `FastImportEmitter.author_for`
caches a synthesized default into it, which does not change any lookup
result, so resolution is modelled as the pure `resolveAuthor`. -/
structure EmitCfg where
  author_map : List (String × String)
  tag_each_rev : Bool
  log_filename : Bool

/-- Code-point lexicographic comparison of character lists: the order
Python uses to compare strings (and hence the order of `sorted()` over a
set of tag names). -/
def lexLe : List Char → List Char → Bool
  | [], _ => true
  | _ :: _, [] => false
  | a :: as, b :: bs =>
    if a.toNat < b.toNat then true
    else if a.toNat = b.toNat then lexLe as bs
    else false

/-- Python string comparison `a <= b` (code-point lexicographic). -/
def strLe (a b : String) : Prop := lexLe a.data b.data = true

instance : DecidableRel strLe := fun _ _ => instDecidableEqBool _ _

/-- Python `sorted()` over a set of strings: the unique `strLe`-sorted
enumeration of the `Finset`.  Defined by lifting insertion sort over the
underlying multiset; the invariance proof shows sorting is well defined
on permutation classes. -/
def sortSymbols (s : Finset String) : List String :=
  Quot.lift (List.insertionSort strLe)
    (fun a b hper => by
      have lexcons : ∀ (x y : Char) (xs ys : List Char),
          lexLe (x :: xs) (y :: ys) = true ↔
            x.toNat < y.toNat ∨ (x.toNat = y.toNat ∧ lexLe xs ys = true) := by
        intro x y xs ys
        simp only [lexLe]
        split_ifs with h1 h2
        · simp [h1]
        · simp [h1, h2]
        · simp [h1, h2]
      have ltotal : ∀ u v : List Char, lexLe u v = true ∨ lexLe v u = true := by
        intro u
        induction u with
        | nil => intro v; left; rfl
        | cons x xs ih =>
          intro v
          cases v with
          | nil => right; rfl
          | cons y ys =>
            rw [lexcons, lexcons]
            rcases Nat.lt_trichotomy x.toNat y.toNat with h | h | h
            · exact Or.inl (Or.inl h)
            · rcases ih ys with h2 | h2
              · exact Or.inl (Or.inr ⟨h, h2⟩)
              · exact Or.inr (Or.inr ⟨h.symm, h2⟩)
            · exact Or.inr (Or.inl h)
      have ltrans : ∀ u v w : List Char,
          lexLe u v = true → lexLe v w = true → lexLe u w = true := by
        intro u
        induction u with
        | nil => intro v w _ _; rfl
        | cons x xs ih =>
          intro v w huv hvw
          cases v with
          | nil => simp [lexLe] at huv
          | cons y ys =>
            cases w with
            | nil => simp [lexLe] at hvw
            | cons z zs =>
              rw [lexcons] at huv hvw ⊢
              rcases huv with h1 | ⟨h1, huv⟩ <;> rcases hvw with h2 | ⟨h2, hvw⟩
              · exact Or.inl (by omega)
              · exact Or.inl (by omega)
              · exact Or.inl (by omega)
              · exact Or.inr ⟨by omega, ih ys zs huv hvw⟩
      have lantisymm : ∀ u v : List Char,
          lexLe u v = true → lexLe v u = true → u = v := by
        intro u
        induction u with
        | nil =>
          intro v _ hvu
          cases v with
          | nil => rfl
          | cons y ys => simp [lexLe] at hvu
        | cons x xs ih =>
          intro v huv hvu
          cases v with
          | nil => simp [lexLe] at huv
          | cons y ys =>
            rw [lexcons] at huv hvu
            rcases huv with h1 | ⟨h1, huv⟩
            · rcases hvu with h2 | ⟨h2, _⟩ <;> omega
            · rcases hvu with h2 | ⟨h2, hvu⟩
              · omega
              · have hx : x = y :=
                  Char.eq_of_val_eq (UInt32.eq_of_val_eq (Fin.ext h1))
                rw [hx, ih ys huv hvu]
      haveI : IsTotal String strLe := ⟨fun u v => ltotal u.data v.data⟩
      haveI : IsTrans String strLe := ⟨fun u v w => ltrans u.data v.data w.data⟩
      haveI : IsAntisymm String strLe :=
        ⟨fun u v h1 h2 => by
          cases u; cases v
          exact congrArg String.mk (lantisymm _ _ h1 h2)⟩
      exact List.eq_of_perm_of_sorted
        (((List.perm_insertionSort _ a).trans
            (Quotient.exact (Quot.sound hper))).trans
          (List.perm_insertionSort _ b).symm)
        (List.sorted_insertionSort _ a) (List.sorted_insertionSort _ b))
    s.val

/-- `FastImportEmitter.author_for` (lines 361-366): mapped identity if
present, else the synthesized `user <user@example.com>` placeholder. -/
def resolveAuthor (amap : List (String × String)) (u : String) : String :=
  match lookupA u amap with
  | some a => a
  | none => u ++ " <" ++ u ++ "@example.com>"

/-- A path operation inside an emitted commit: `M mode :mark path` or
`D path` (rcs2git.py lines 428-433). -/
inductive TreeOp where
  | modify (mode : String) (mark : Nat) (path : String)
  | delete (path : String)
deriving DecidableEq

/-- One framed object written to the fast-import stream.  `commit` records
the mark, resolved author line, timestamp, log message, optional `from`
parent reference, path operations, and the symbol tags reset to it;
`tagRev` is the per-revision lightweight tag of `emit_all`
(lines 646-653). -/
inductive StreamOp where
  | blob (mark : Nat) (content : String)
  | commit (mark : Nat) (author : String) (date_ts : Int) (log : String)
      (parent : Option Nat) (tree : List TreeOp) (tags : List String)
  | tagRev (name : String) (mark : Nat)
deriving DecidableEq

/-- `FastImportEmitter.emit_blob` (lines 368-384): return the existing
mark for a `(filename, rev)` pair, or allocate the next mark, record it,
and write the blob.  Returns the mark, the new state, and the stream
output. -/
def emit_blob (st : EmitterState) (filename rev_id content : String) :
    Nat × EmitterState × List StreamOp :=
  match lookupA (filename, rev_id) st.blob_marks with
  | some m => (m, st, [])
  | none =>
    let m := st.next_mark
    (m, { st with
            next_mark := m + 1
            blob_marks := ((filename, rev_id), m) :: st.blob_marks },
      [StreamOp.blob m content])

/-- `FastImportEmitter.emit_commit` (lines 386-444): allocate the commit
mark, write the commit object (the `from` line only when `parent_mark` is
truthy, a `D path` tree line when an entry's mark is `None`), and update
`_last_commit_mark_for_file` for every entry whose mark is not `None`.
The committer line (an external `git var` call when the author is not the
committer) is outside the embedded core and not recorded. -/
def emit_commit (cfg : EmitCfg) (st : EmitterState)
    (tree_entries : List (String × Option Nat × String))
    (author_name : String) (date_ts : Int) (logmsg : String)
    (parent_mark : Option Nat) (tags : List String) :
    Nat × EmitterState × List StreamOp :=
  let cm := st.next_mark
  let tree := tree_entries.map fun e =>
    match e.2.1 with
    | none => TreeOp.delete e.1
    | some bm => TreeOp.modify e.2.2 bm e.1
  let newLast := tree_entries.foldl
    (fun acc e => if e.2.1.isSome then (e.1, cm) :: acc else acc)
    st.last_commit_mark_for_file
  (cm,
    { st with
        next_mark := cm + 1
        last_commit_mark_for_file := newLast },
    [StreamOp.commit cm (resolveAuthor cfg.author_map author_name) date_ts
      logmsg (pyTruthy parent_mark) tree tags])

/-- Executable-bit heuristic of `emit_all` (lines 623-626): mode 755 iff
the content starts with a shebang. -/
def shebang (s : String) : Bool :=
  match s.data with
  | '#' :: '!' :: _ => true
  | _ => false

/-- The per-file loop of `emit_all` (lines 621-628): for each member,
ensure its blob exists and collect the `(path, mark, mode)` tree entry.
The mark slot is an `Option Nat` exactly as `emit_commit` receives it;
this loop always fills it with `some`. -/
def emit_blobs : EmitterState → List SingleFileCommit →
    EmitterState × List StreamOp × List (String × Option Nat × String)
  | st, [] => (st, [], [])
  | st, sf :: rest =>
    let mode := if shebang sf.content then "755" else "644"
    let r1 := emit_blob st sf.filename sf.rev_id sf.content
    let r2 := emit_blobs r1.2.1 rest
    (r2.1, r1.2.2 ++ r2.2.1, (sf.filename, some r1.1, mode) :: r2.2.2)

/-- One iteration of the commit loop of `emit_all` (lines 610-653):
compute the parent candidate as the truthy last-commit marks of the
touched files and take their maximum, emit the blobs and the commit (the
log message gets the `file: ` prefixing only for single-member groups
with `log_filename` set, the tag list is the sorted symbol union), then
optionally write one lightweight tag per member revision. -/
def emit_one_commit (cfg : EmitCfg) (st : EmitterState) (c : CommitGroup) :
    Nat × EmitterState × List StreamOp :=
  let candidate_parents := c.files.filterMap fun sf =>
    pyTruthy (lookupA sf.filename st.last_commit_mark_for_file)
  let parent_mark := candidate_parents.max?
  let r := emit_blobs st c.files
  let logmsg :=
    match c.files with
    | [f] => if cfg.log_filename then f.filename ++ ": " ++ c.log else c.log
    | _ => c.log
  let tags := sortSymbols c.symbols
  let r2 := emit_commit cfg r.1 r.2.2 c.author c.date_ts logmsg parent_mark tags
  let tagOut :=
    if cfg.tag_each_rev then
      c.files.map fun sf => StreamOp.tagRev sf.rev_id r2.1
    else []
  (r2.1, r2.2.1, r.2.1 ++ r2.2.2 ++ tagOut)

/-- Shallow embedding of `emit_all` (rcs2git.py lines 603-653), threading
the emitter state through the ordered commit list and concatenating the
stream output. -/
def emit_all (cfg : EmitCfg) : EmitterState → List CommitGroup →
    EmitterState × List StreamOp
  | st, [] => (st, [])
  | st, c :: rest =>
    let r := emit_one_commit cfg st c
    let r2 := emit_all cfg r.2.1 rest
    (r2.1, r.2.2 ++ r2.2)

/-- The marks allocated to framed content and commit objects, in emission
order (tag resets reference existing marks and allocate none). -/
def marksOf : List StreamOp → List Nat
  | [] => []
  | StreamOp.blob m _ :: rest => m :: marksOf rest
  | StreamOp.commit m _ _ _ _ _ _ :: rest => m :: marksOf rest
  | StreamOp.tagRev _ _ :: rest => marksOf rest

/-- A path operation that modifies a path with a positive blob mark
(never a deletion). -/
def treeOpIsModify : TreeOp → Bool
  | TreeOp.modify _ bm _ => decide (1 ≤ bm)
  | TreeOp.delete _ => false

/-- A stream object whose path operations are all positive-mark
modifications (trivially true for non-commit objects). -/
def opHasNoDelete : StreamOp → Bool
  | StreamOp.commit _ _ _ _ _ tree _ => tree.all treeOpIsModify
  | _ => true

/-- All marks recorded by an emitter state are positive and the counter
is at least 1: the invariant every reachable state satisfies. -/
def marksPositive (st : EmitterState) : Prop :=
  1 ≤ st.next_mark ∧ ∀ kv ∈ st.blob_marks, 1 ≤ kv.2

/-- The keys and the values of the blob-mark table are each free of
duplicates and every recorded mark is below the counter: the table is an
injective partial map into already-allocated marks. -/
def blobTableWF (st : EmitterState) : Prop :=
  ((st.blob_marks.map fun kv => kv.1).Nodup) ∧
  ((st.blob_marks.map fun kv => kv.2).Nodup) ∧
  ∀ kv ∈ st.blob_marks, kv.2 < st.next_mark

/-- An emission step starting at state `st` and ending at state `st2`
writes exactly the marks `st.next_mark, st.next_mark+1, ...` in order,
consuming the counter. -/
def emitsRange (st st2 : EmitterState) (out : List StreamOp) : Prop :=
  ∃ k, marksOf out = List.range' st.next_mark k ∧
    st2.next_mark = st.next_mark + k

/-! ### History collection and the fatal-exit check
(`collect_histories`, rcs2git.py lines 450-511, and `main` lines 762-764) -/

/-- One revision as produced by `parse_rlog` (the fields of the `Revision`
class that survive into a `FileHistory`). -/
structure RevisionInfo where
  rev : String
  author : String
  date_ts : Int
  log : String
  symbols : Finset String
  branches : List String
deriving DecidableEq

/-- One parsed `FileHistory`: logical filename plus chronological
revision list. -/
structure FileHistoryInfo where
  filename : String
  revisions : List RevisionInfo
deriving DecidableEq

/-- The per-file loop of `collect_histories` (lines 481-490) over the
outcome of `parse_rlog` for each discovered `,v` file: `none` models
`parse_rlog` raising (the file is skipped with a diagnostic and the loop
continues), `some fh` models a returned history, whose branch-only
revisions are filtered out when `skip_branches` is set.  The walk itself
(filesystem, ignore globs) is the external collaborator that produces the
input list. -/
def collect_histories (skipBranches : Bool) :
    List (Option FileHistoryInfo) → List FileHistoryInfo
  | [] => []
  | none :: rest => collect_histories skipBranches rest
  | some fh :: rest =>
    (if skipBranches then
        { fh with revisions := fh.revisions.filter fun r => r.branches.isEmpty }
      else fh) :: collect_histories skipBranches rest

/-- The fatal check of `main` (lines 762-764): `sys.exit(1)` exactly when
the collected history list is empty. -/
def fatalNoHistories (hs : List FileHistoryInfo) : Bool :=
  hs.isEmpty

/-- Total number of revisions yielded across the collected histories. -/
def totalRevisions (hs : List FileHistoryInfo) : Nat :=
  (hs.map fun h => h.revisions.length).sum

/-! ### Concrete records used to instantiate the theorems below -/

/-- Revision of `a.txt` by alice at t=0, log "msg". -/
def exA : SingleFileCommit := ⟨"a.txt", "a.txt,v", "1.1", "alice", 0, "msg", ∅, [], "A"⟩

/-- Revision of `b.txt` by bob at t=10, log "msg": same log as `exA`,
different author, inside the default fuzz window of `exA`. -/
def exB : SingleFileCommit := ⟨"b.txt", "b.txt,v", "1.1", "bob", 10, "msg", ∅, [], "B"⟩

/-- Revision of `c.txt` by alice at t=20, log "msg": merges with `exA`. -/
def exC : SingleFileCommit := ⟨"c.txt", "c.txt,v", "1.1", "alice", 20, "msg", ∅, [], "C"⟩

/-- Tagged revision of `d1.txt`: symbol set `{REL_1}`. -/
def exD1 : SingleFileCommit :=
  ⟨"d1.txt", "d1.txt,v", "1.3", "alice", 0, "msg", {"REL_1"}, [], "D1"⟩

/-- Revision of `d2.txt` ten seconds later with the same author and log
but the disjoint, non-subset symbol set `{OTHER}`. -/
def exD2 : SingleFileCommit :=
  ⟨"d2.txt", "d2.txt,v", "1.9", "alice", 10, "msg", {"OTHER"}, [], "D2"⟩

/-- First revision of `dup.txt`. -/
def exDup1 : SingleFileCommit :=
  ⟨"dup.txt", "dup.txt,v", "1.1", "alice", 0, "msg", {"S"}, [], "E1"⟩

/-- Second revision of the same file `dup.txt`, same author and log, ten
seconds later, identical symbol set. -/
def exDup2 : SingleFileCommit :=
  ⟨"dup.txt", "dup.txt,v", "1.2", "alice", 10, "msg", {"S"}, [], "E2"⟩

/-- Two chronological revisions of one file `w.txt` (a single-history
run). -/
def exW1 : SingleFileCommit :=
  ⟨"w.txt", "w.txt,v", "1.1", "alice", 0, "Initial revision", ∅, [], "W1"⟩

/-- Second revision of `w.txt`, an hour later. -/
def exW2 : SingleFileCommit :=
  ⟨"w.txt", "w.txt,v", "1.2", "alice", 3600, "Second revision", ∅, [], "W2"⟩

/-! ## Theorems -/

/-- Claim C6: timestamp parsing satisfies the spec's concrete cases.  The
two-digit-year field `99.12.31.23.59.59` parses (for every environment,
in particular whatever the generic parser and clock do) to 946684799, the
Unix timestamp of 1999-12-31T23:59:59Z — a timestamp in year 1999, the
two-digit year read as 19YY; `2023.10.27.10.30.00` parses to 1698402600,
the UTC instant 2023-10-27T10:30:00Z; and a string the generic parse
rejects, such as `invalid date`, yields exactly the current-time reading
taken at the call (within a couple of seconds of now).  The embedded
parser is a total function, so no input raises an exception. -/
theorem claim_C6 :
    (∀ env : DateParseEnv,
      parse_rcs_date env ("99.12.31.23.59.59").data = 946684799) ∧
    (∀ env : DateParseEnv,
      parse_rcs_date env ("2023.10.27.10.30.00").data = 1698402600) ∧
    (∀ env : DateParseEnv, env.iso ("invalid date").data = none →
      parse_rcs_date env ("invalid date").data = env.now) := by
  refine ⟨fun env => rfl, fun env => rfl, fun env h => ?_⟩
  obtain ⟨iso, now⟩ := env
  simp only [parse_rcs_date]
  rw [if_pos (by decide)]
  simp only at h
  rw [h]

/-- Witness: the C6 cases evaluated in the environment whose generic
parser always fails and whose clock reads 7. -/
theorem claim_C6_witness :
    parse_rcs_date ⟨fun _ => none, 7⟩ ("99.12.31.23.59.59").data = 946684799 ∧
    parse_rcs_date ⟨fun _ => none, 7⟩ ("2023.10.27.10.30.00").data = 1698402600 ∧
    parse_rcs_date ⟨fun _ => none, 7⟩ ("invalid date").data = 7 :=
  ⟨claim_C6.1 _, claim_C6.2.1 _, claim_C6.2.2 ⟨fun _ => none, 7⟩ rfl⟩

/-- Claim C7 counterexample: the field `a.1.2.3.4.5` does not match the
six-dot-separated-integer shape (its first part is not an integer), and
even in an environment whose generic parser succeeds (returning 42) the
result is the current-time fallback (0 here): the generic parse is never
attempted for fields with six or more dot-parts, contradicting the claim
that the fallback is only taken after the generic parse fails. -/
theorem claim_C7_counterexample :
    matchesSixIntShape ("a.1.2.3.4.5").data = false ∧
    parse_rcs_date ⟨fun _ => some 42, 0⟩ ("a.1.2.3.4.5").data = 0 := by
  constructor
  · decide
  · rfl

/-- Claim C7 (amended): only date fields with fewer than six dot-separated
parts get the generic calendar parse — for those the result is the
generic parse's value when it succeeds and the current time otherwise.
A field with six or more dot-parts never consults the generic parser (its
result is independent of it); its result is the six-part conversion when
that succeeds, and when integer conversion or calendar validation fails
(the six-part conversion is `none`) it falls back directly to the current
wall-clock time. -/
theorem claim_C7 :
    (∀ (env : DateParseEnv) (s : List Char),
      (splitDot (pyStrip s)).length < 6 →
      parse_rcs_date env s = (env.iso s).getD env.now) ∧
    (∀ (iso1 iso2 : List Char → Option Int) (now : Int) (s : List Char),
      6 ≤ (splitDot (pyStrip s)).length →
      parse_rcs_date ⟨iso1, now⟩ s = parse_rcs_date ⟨iso2, now⟩ s) ∧
    (∀ (env : DateParseEnv) (s : List Char),
      6 ≤ (splitDot (pyStrip s)).length →
      parse_rcs_date env s = (sixPartTimestamp? s).getD env.now) ∧
    (∀ (env : DateParseEnv) (s : List Char),
      6 ≤ (splitDot (pyStrip s)).length → sixPartTimestamp? s = none →
      parse_rcs_date env s = env.now) := by
  have hchar : ∀ (env : DateParseEnv) (s : List Char),
      6 ≤ (splitDot (pyStrip s)).length →
      parse_rcs_date env s = (sixPartTimestamp? s).getD env.now := by
    intro env s h
    obtain ⟨iso, now⟩ := env
    simp only [parse_rcs_date, sixPartTimestamp?]
    rw [if_neg (Nat.not_lt.mpr h)]
    set parts := splitDot (pyStrip s) with hparts
    set y0 := parts.getD 0 [] with hy0
    set y := if y0.length < 3 then '1' :: '9' :: y0 else y0 with hy
    cases pyInt? y <;> cases pyInt? (parts.getD 1 []) <;>
      cases pyInt? (parts.getD 2 []) <;> cases pyInt? (parts.getD 3 []) <;>
      cases pyInt? (parts.getD 4 []) <;> cases pyInt? (parts.getD 5 []) <;>
      simp only [Option.getD_some, Option.getD_none] <;>
      first
        | rfl
        | (split_ifs <;> rfl)
  refine ⟨fun env s h => ?_, fun iso1 iso2 now s h => ?_, hchar,
    fun env s h hnone => ?_⟩
  · obtain ⟨iso, now⟩ := env
    simp only [parse_rcs_date]
    rw [if_pos h]
    cases hi : iso s <;> simp [hi]
  · rw [hchar ⟨iso1, now⟩ s h, hchar ⟨iso2, now⟩ s h]
  · rw [hchar env s h, hnone]
    rfl

/-- Witness: the C7 branches at concrete fields — `invalid date` has one
dot-part; `1.2.3.4.5.6` has six and converts; `a.1.2.3.4.5` has six parts
whose integer conversion fails, so the result is the clock reading 9. -/
theorem claim_C7_witness :
    parse_rcs_date ⟨fun _ => some 5, 9⟩ ("invalid date").data =
      ((some 5 : Option Int).getD 9) ∧
    parse_rcs_date ⟨fun _ => some 5, 9⟩ ("1.2.3.4.5.6").data =
      parse_rcs_date ⟨fun _ => none, 9⟩ ("1.2.3.4.5.6").data ∧
    parse_rcs_date ⟨fun _ => some 5, 9⟩ ("1.2.3.4.5.6").data =
      (sixPartTimestamp? ("1.2.3.4.5.6").data).getD 9 ∧
    parse_rcs_date ⟨fun _ => some 5, 9⟩ ("a.1.2.3.4.5").data = 9 :=
  ⟨claim_C7.1 ⟨fun _ => some 5, 9⟩ _ (by decide),
   claim_C7.2.1 (fun _ => some 5) (fun _ => none) 9 _ (by decide),
   claim_C7.2.2.1 ⟨fun _ => some 5, 9⟩ _ (by decide),
   claim_C7.2.2.2 ⟨fun _ => some 5, 9⟩ _ (by decide) (by decide)⟩

/-- Claim C1, evaluated at the failing input: three records at t=0, 10 and
20 with a common log message, where the middle one (`exB`, author bob)
differs in author from the others (author alice).  The anchor pass at
`exA` scans past `exB` (rejected for its author) and accepts `exC`, and
the resume rule `i = max_idx + 1` then jumps past `exB` as well, so the
output is a single group `[exA, exC]`: only 2 of the 3 input records
appear in any group and `b.txt` appears in none — the output is not a
partition of the input, and the skipped record never becomes an anchor. -/
theorem claim_C1 :
    coalesce_commits [exA, exB, exC] 300 true =
      [⟨0, "alice", "msg", [exA, exC], ∅⟩] ∧
    ((coalesce_commits [exA, exB, exC] 300 true).map fun g =>
      g.files.length).sum = 2 ∧
    (coalesce_commits [exA, exB, exC] 300 true).all
      (fun g => !((g.files.map fun f => f.filename).contains "b.txt")) = true := by
  decide

/-- Claim C2 counterexample: the two `dup.txt` revisions match in author
and log, the candidate lies inside the fuzz window, and its symbol set is
a subset of the group's (they are equal), yet the engine does not merge
them — they end in two separate singleton groups, because the candidate's
file identity duplicates the anchor's.  The claimed "if and only if" is
therefore false as stated: subset-compatible symbols do not suffice. -/
theorem claim_C2_counterexample :
    exDup2.author = exDup1.author ∧ exDup2.log = exDup1.log ∧
    exDup2.date_ts ≤ exDup1.date_ts + 300 ∧
    (exDup2.symbols ⊆ exDup1.symbols ∨ exDup1.symbols ⊆ exDup2.symbols) ∧
    (coalesce_commits [exDup1, exDup2] 300 true).map (fun g => g.files) =
      [[exDup1], [exDup2]] := by decide

/-- Claim C2 (amended): a candidate matching the anchor's author and log
inside the fuzz window is merged into the group if and only if the
symbol-consistency condition holds (when checking is enabled, the
candidate's symbol set must be a subset of the group's accumulated set or
vice versa) AND the candidate's file identity is not already among the
group's members; and, as the spec's scenario states, two files with
disjoint non-subset symbol sets end up in two separate commit groups
despite matching author, message and time when symbol checking is
enabled. -/
theorem claim_C2 :
    (∀ (fuzz : Int) (symCheck : Bool) (base cand : SingleFileCommit)
        (rest files : List SingleFileCommit) (j maxIdx : Nat)
        (syms : Finset String),
      ¬ base.date_ts + fuzz < cand.date_ts →
      cand.author = base.author → cand.log = base.log →
      scanGroup fuzz symCheck base (cand :: rest) j files maxIdx syms =
        if (symCheck → (syms ⊆ cand.symbols ∨ cand.symbols ⊆ syms))
            ∧ cand.filename ∉ files.map (fun f => f.filename) then
          scanGroup fuzz symCheck base rest (j + 1) (files ++ [cand])
            (max maxIdx j) (syms ∪ cand.symbols)
        else scanGroup fuzz symCheck base rest (j + 1) files maxIdx syms) ∧
    coalesce_commits [exD1, exD2] 300 true =
      [⟨0, "alice", "msg", [exD1], {"REL_1"}⟩,
       ⟨10, "alice", "msg", [exD2], {"OTHER"}⟩] := by
  constructor
  · intro fuzz symCheck base cand rest files j maxIdx syms hw ha hl
    simp only [scanGroup]
    rw [if_neg hw]
    rw [if_neg (by simp [ha, hl])]
    by_cases hs : (symCheck = true) ∧ ¬ (syms ⊆ cand.symbols ∨ cand.symbols ⊆ syms)
    · rw [if_pos hs, if_neg]
      rintro ⟨himp, -⟩
      exact hs.2 (himp hs.1)
    · rw [if_neg hs]
      by_cases hm : cand.filename ∈ files.map (fun f => f.filename)
      · rw [if_pos hm, if_neg]
        rintro ⟨-, hnm⟩
        exact hnm hm
      · rw [if_neg hm, if_pos]
        refine ⟨fun hsc => ?_, hm⟩
        by_contra hns
        exact hs ⟨hsc, hns⟩
  · decide

/-- Witness: the amended merge condition instantiated at the scan step
that considers `exD2` against the group anchored at `exD1`. -/
theorem claim_C2_witness :
    scanGroup 300 true exD1 [exD2] 1 [exD1] 0 {"REL_1"} =
      (if (true = true →
            (({"REL_1"} : Finset String) ⊆ exD2.symbols ∨
              exD2.symbols ⊆ {"REL_1"}))
          ∧ exD2.filename ∉ [exD1].map (fun f => f.filename) then
        scanGroup 300 true exD1 [] (1 + 1) ([exD1] ++ [exD2]) (max 0 1)
          ({"REL_1"} ∪ exD2.symbols)
      else scanGroup 300 true exD1 [] (1 + 1) [exD1] 0 {"REL_1"}) :=
  claim_C2.1 300 true exD1 exD2 [] [exD1] 1 0 {"REL_1"}
    (by decide) (by decide) (by decide)

/-- The scan preserves distinctness of member filenames: a candidate is
accepted only when its filename is absent from the group. -/
theorem scanGroup_files_nodup (fuzz : Int) (symCheck : Bool)
    (base : SingleFileCommit) :
    ∀ (rest : List SingleFileCommit) (j : Nat)
      (files : List SingleFileCommit) (maxIdx : Nat) (syms : Finset String),
      (files.map fun f => f.filename).Nodup →
      ((scanGroup fuzz symCheck base rest j files maxIdx syms).1.map
        fun f => f.filename).Nodup := by
  intro rest
  induction rest with
  | nil => intro j files maxIdx syms h; simpa [scanGroup] using h
  | cons cand rest ih =>
    intro j files maxIdx syms h
    simp only [scanGroup]
    split_ifs with h1 h2 h3 h4
    · simpa using h
    · exact ih _ _ _ _ h
    · exact ih _ _ _ _ h
    · exact ih _ _ _ _ h
    · apply ih
      simp only [List.map_append, List.map_cons, List.map_nil]
      rw [List.nodup_append]
      exact ⟨h, List.nodup_singleton _, by simpa [List.disjoint_singleton] using h4⟩

/-- Every group the outer loop produces starts from a singleton member
list, so its member filenames stay pairwise distinct. -/
theorem coalesceFrom_files_nodup (cs : List SingleFileCommit) (fuzz : Int)
    (symCheck : Bool) :
    ∀ (fuel i : Nat) (g : CommitGroup),
      g ∈ coalesceFrom cs fuzz symCheck fuel i →
      (g.files.map fun f => f.filename).Nodup := by
  intro fuel
  induction fuel with
  | zero => intro i g hg; simp [coalesceFrom] at hg
  | succ fuel ih =>
    intro i g hg
    by_cases h : i < cs.length
    · simp only [coalesceFrom, dif_pos h] at hg
      rcases List.mem_cons.mp hg with rfl | hg2
      · exact scanGroup_files_nodup _ _ _ _ _ _ _ _ (by simp)
      · exact ih _ _ hg2
    · simp [coalesceFrom, dif_neg h] at hg

/-- Claim C5: in every commit group produced by `coalesce_commits`, the
member file identities are pairwise distinct — a candidate whose filename
equals that of a member already in the group is rejected, so no group
holds two revisions of the same file. -/
theorem claim_C5 (cs : List SingleFileCommit) (fuzz : Int) (symCheck : Bool) :
    ∀ g ∈ coalesce_commits cs fuzz symCheck,
      (g.files.map fun f => f.filename).Nodup :=
  fun g hg => coalesceFrom_files_nodup cs fuzz symCheck cs.length 0 g hg

/-- Witness: the group produced for the three-record example has distinct
filenames. -/
theorem claim_C5_witness :
    ((CommitGroup.mk 0 "alice" "msg" [exA, exC] ∅).files.map
      fun f => f.filename).Nodup :=
  claim_C5 [exA, exB, exC] 300 true _ (by decide)

/-- When every scannable record's filename is already in the group, the
scan accepts nothing and leaves the group state unchanged. -/
theorem scanGroup_no_accept (fuzz : Int) (symCheck : Bool)
    (base : SingleFileCommit) :
    ∀ (rest : List SingleFileCommit) (j : Nat)
      (files : List SingleFileCommit) (maxIdx : Nat) (syms : Finset String),
      (∀ s ∈ rest, s.filename ∈ files.map fun f => f.filename) →
      scanGroup fuzz symCheck base rest j files maxIdx syms
        = (files, maxIdx, syms) := by
  intro rest
  induction rest with
  | nil => intro j files maxIdx syms _; rfl
  | cons cand rest ih =>
    intro j files maxIdx syms hall
    simp only [scanGroup]
    split_ifs with h1 h2 h3 h4
    · rfl
    · exact ih _ _ _ _ fun s hs => hall s (List.mem_cons_of_mem _ hs)
    · exact ih _ _ _ _ fun s hs => hall s (List.mem_cons_of_mem _ hs)
    · exact ih _ _ _ _ fun s hs => hall s (List.mem_cons_of_mem _ hs)
    · exact absurd (hall cand (List.mem_cons_self _ _)) h4

/-- On a record list drawn from a single file, the coalescing pass makes
every record its own singleton group: every candidate repeats the
anchor's filename and is rejected, and the resume index advances by
exactly one. -/
theorem coalesceFrom_single_history (cs : List SingleFileCommit) (fuzz : Int)
    (symCheck : Bool) (fname : String)
    (hall : ∀ s ∈ cs, s.filename = fname) :
    ∀ (fuel i : Nat), cs.length ≤ fuel + i →
      coalesceFrom cs fuzz symCheck fuel i =
        (cs.drop i).map fun s =>
          ⟨s.date_ts, s.author, s.log, [s], s.symbols⟩ := by
  intro fuel
  induction fuel with
  | zero =>
    intro i hle
    rw [List.drop_eq_nil_of_le (by omega)]
    rfl
  | succ fuel ih =>
    intro i hle
    by_cases h : i < cs.length
    · simp only [coalesceFrom, dif_pos h]
      rw [scanGroup_no_accept]
      · rw [List.drop_eq_getElem_cons h, List.map_cons]
        refine congrArg₂ _ ?_ ?_
        · simp [List.get_eq_getElem]
        · exact ih (i + 1) (by omega)
      · intro s hs
        have h1 : s.filename = fname :=
          hall s (List.drop_subset _ _ hs)
        have h2 : (cs.get ⟨i, h⟩).filename = fname :=
          hall _ (List.get_mem cs i h)
        simp only [List.map_cons, List.map_nil, List.mem_singleton, h1,
          List.get_eq_getElem] at h2 ⊢
        exact h2.symm
    · rw [List.drop_eq_nil_of_le (by omega)]
      simp [coalesceFrom, dif_neg h]

/-- Claim C9: for a run consisting of one file's timeline (every record
shares one file identity, records time-sorted), the special-cased
singleton path of `main` produces exactly the same ordered group list —
same timestamps, authors, messages, members and symbol sets — as running
the general coalescing engine with any fuzz window and symbol-check
setting. -/
theorem claim_C9 (sfcs : List SingleFileCommit) (fuzz : Int) (symCheck : Bool)
    (fname : String) (hall : ∀ s ∈ sfcs, s.filename = fname)
    (_hsorted : List.Chain' (fun a b => a.date_ts ≤ b.date_ts) sfcs) :
    singleHistoryCommits sfcs = coalesce_commits sfcs fuzz symCheck := by
  rw [coalesce_commits,
    coalesceFrom_single_history sfcs fuzz symCheck fname hall sfcs.length 0
      (by omega)]
  simp [singleHistoryCommits]

/-- Witness: the two-revision single-file timeline gives identical output
on both paths. -/
theorem claim_C9_witness :
    singleHistoryCommits [exW1, exW2] = coalesce_commits [exW1, exW2] 300 true :=
  claim_C9 [exW1, exW2] 300 true "w.txt" (by decide)
    (List.chain'_cons.mpr ⟨by decide, List.chain'_singleton _⟩)


/-- Claim C8 counterexample: a run whose single file parses successfully
but yields zero revisions.  The collected history list is nonempty, so
the run is not fatal — even though zero files yielded any revision — and
the claimed equivalence "fatal exactly when zero files yielded any
revision" fails. -/
theorem claim_C8_counterexample :
    fatalNoHistories (collect_histories false [some ⟨"f", []⟩]) = false ∧
    totalRevisions (collect_histories false [some ⟨"f", []⟩]) = 0 := by decide

/-- Claim C8 (amended): a file whose historical record cannot be parsed
(`parse_rlog` raises) is skipped and contributes nothing while the other
files continue to be processed, and the run is fatal exactly when no
file's record could be parsed at all — a file that parses to zero
revisions still counts as a collected history and prevents the fatal
exit. -/
theorem claim_C8 :
    (∀ (sb : Bool) (pre post : List (Option FileHistoryInfo)),
      collect_histories sb (pre ++ none :: post) =
        collect_histories sb pre ++ collect_histories sb post) ∧
    (∀ (sb : Bool) (files : List (Option FileHistoryInfo)),
      fatalNoHistories (collect_histories sb files) = true ↔
        ∀ f ∈ files, f = none) := by
  constructor
  · intro sb pre post
    induction pre with
    | nil => rfl
    | cons a pre ih =>
      cases a <;> simp [collect_histories, ih]
  · intro sb files
    induction files with
    | nil => simp [collect_histories, fatalNoHistories]
    | cons f rest ih =>
      cases f with
      | none => simpa [collect_histories] using ih
      | some fh => simp [collect_histories, fatalNoHistories]

/-- Witness: skipping an unparseable file between two parsed ones, and
the fatal check on a run where the only file fails to parse. -/
theorem claim_C8_witness :
    collect_histories false ([some ⟨"g", []⟩] ++ none :: [some ⟨"h", []⟩]) =
      collect_histories false [some ⟨"g", []⟩] ++
        collect_histories false [some ⟨"h", []⟩] ∧
    (fatalNoHistories (collect_histories false
        [(none : Option FileHistoryInfo)]) = true ↔
      ∀ f ∈ [(none : Option FileHistoryInfo)], f = none) :=
  ⟨claim_C8.1 false [some ⟨"g", []⟩] [some ⟨"h", []⟩], claim_C8.2 false [none]⟩

/-- The running maximum of consumed indices never decreases during a
scan. -/
theorem scanGroup_maxIdx_ge (fuzz : Int) (symCheck : Bool)
    (base : SingleFileCommit) :
    ∀ (rest : List SingleFileCommit) (j : Nat)
      (files : List SingleFileCommit) (maxIdx : Nat) (syms : Finset String),
      maxIdx ≤ (scanGroup fuzz symCheck base rest j files maxIdx syms).2.1 := by
  intro rest
  induction rest with
  | nil => intro j files maxIdx syms; exact le_refl _
  | cons cand rest ih =>
    intro j files maxIdx syms
    simp only [scanGroup]
    split_ifs with h1 h2 h3 h4
    · exact le_refl _
    · exact ih _ _ _ _
    · exact ih _ _ _ _
    · exact ih _ _ _ _
    · exact le_trans (le_max_left _ _) (ih _ _ _ _)

/-- Any fuel of at least `cs.length - i` computes the same group list:
the resume index grows by at least one per iteration, so the
fuel-exhausted branch of `coalesceFrom` is never reached and
`coalesce_commits`, which supplies fuel `cs.length`, computes exactly the
unbounded loop of the Python code. -/
theorem coalesceFrom_fuel_irrelevant (cs : List SingleFileCommit)
    (fuzz : Int) (symCheck : Bool) :
    ∀ (fuel1 fuel2 i : Nat), cs.length ≤ fuel1 + i → cs.length ≤ fuel2 + i →
      coalesceFrom cs fuzz symCheck fuel1 i
        = coalesceFrom cs fuzz symCheck fuel2 i := by
  intro fuel1
  induction fuel1 with
  | zero =>
    intro fuel2 i h1 h2
    cases fuel2 with
    | zero => rfl
    | succ fuel2 => simp [coalesceFrom, dif_neg (show ¬ i < cs.length by omega)]
  | succ fuel1 ih =>
    intro fuel2 i h1 h2
    cases fuel2 with
    | zero => simp [coalesceFrom, dif_neg (show ¬ i < cs.length by omega)]
    | succ fuel2 =>
      by_cases h : i < cs.length
      · simp only [coalesceFrom, dif_pos h]
        refine congrArg _ ?_
        have hge := scanGroup_maxIdx_ge fuzz symCheck (cs.get ⟨i, h⟩)
          (cs.drop (i + 1)) (i + 1) [cs.get ⟨i, h⟩] i (cs.get ⟨i, h⟩).symbols
        exact ih fuel2 _ (by omega) (by omega)
      · simp only [coalesceFrom, dif_neg h]

theorem lookupA_mem {α β : Type} [DecidableEq α] {k : α} {v : β} :
    ∀ {l : List (α × β)}, lookupA k l = some v → (k, v) ∈ l := by
  intro l
  induction l with
  | nil => intro h; simp [lookupA] at h
  | cons kv rest ih =>
    intro h
    obtain ⟨k2, v2⟩ := kv
    simp only [lookupA] at h
    split_ifs at h with he
    · injection h with hv
      subst he hv
      exact List.mem_cons_self _ _
    · exact List.mem_cons_of_mem _ (ih h)

theorem emit_blob_marksPositive {st : EmitterState}
    (h : marksPositive st) (fn rv c : String) :
    marksPositive (emit_blob st fn rv c).2.1 ∧ 1 ≤ (emit_blob st fn rv c).1 := by
  obtain ⟨h1, h2⟩ := h
  cases hl : lookupA (fn, rv) st.blob_marks with
  | some m =>
    simp only [emit_blob, hl]
    exact ⟨⟨h1, h2⟩, h2 _ (lookupA_mem hl)⟩
  | none =>
    simp only [emit_blob, hl]
    refine ⟨⟨show 1 ≤ st.next_mark + 1 by omega, ?_⟩,
      show 1 ≤ st.next_mark from h1⟩
    intro kv hkv
    rcases List.mem_cons.mp hkv with rfl | hkv2
    · exact h1
    · exact h2 _ hkv2

theorem emit_blobs_marksPositive :
    ∀ (files : List SingleFileCommit) (st : EmitterState), marksPositive st →
      marksPositive (emit_blobs st files).1 ∧
      (∀ e ∈ (emit_blobs st files).2.2, ∃ bm, e.2.1 = some bm ∧ 1 ≤ bm) ∧
      ((emit_blobs st files).2.1.all opHasNoDelete) = true := by
  intro files
  induction files with
  | nil => intro st h; exact ⟨h, by simp [emit_blobs], by simp [emit_blobs]⟩
  | cons sf rest ih =>
    intro st h
    have hb := emit_blob_marksPositive h sf.filename sf.rev_id sf.content
    have hr := ih (emit_blob st sf.filename sf.rev_id sf.content).2.1 hb.1
    simp only [emit_blobs]
    refine ⟨hr.1, ?_, ?_⟩
    · intro e he
      rcases List.mem_cons.mp he with rfl | he2
      · exact ⟨_, rfl, hb.2⟩
      · exact hr.2.1 e he2
    · rw [List.all_append, hr.2.2, Bool.and_true]
      cases hl : lookupA (sf.filename, sf.rev_id) st.blob_marks <;>
        simp [emit_blob, hl, opHasNoDelete]

theorem emit_commit_good (cfg : EmitCfg) (st : EmitterState)
    (entries : List (String × Option Nat × String)) (an : String)
    (dt : Int) (lg : String) (pm : Option Nat) (tags : List String)
    (hpos : marksPositive st)
    (hent : ∀ e ∈ entries, ∃ bm, e.2.1 = some bm ∧ 1 ≤ bm) :
    marksPositive (emit_commit cfg st entries an dt lg pm tags).2.1 ∧
    ((emit_commit cfg st entries an dt lg pm tags).2.2.all opHasNoDelete)
      = true := by
  obtain ⟨h1, h2⟩ := hpos
  refine ⟨⟨by simp [emit_commit], by simpa [emit_commit] using h2⟩, ?_⟩
  simp only [emit_commit, List.all_cons, List.all_nil, Bool.and_true,
    opHasNoDelete]
  rw [List.all_eq_true]
  intro t ht
  rcases List.mem_map.mp ht with ⟨e, he, rfl⟩
  obtain ⟨bm, hbm, hge⟩ := hent e he
  rw [hbm]
  simpa [treeOpIsModify] using hge

theorem emit_one_commit_good (cfg : EmitCfg) (st : EmitterState)
    (c : CommitGroup) (h : marksPositive st) :
    marksPositive (emit_one_commit cfg st c).2.1 ∧
    ((emit_one_commit cfg st c).2.2.all opHasNoDelete) = true := by
  have hb := emit_blobs_marksPositive c.files st h
  have hc := emit_commit_good cfg (emit_blobs st c.files).1
    (emit_blobs st c.files).2.2 c.author c.date_ts
    (match c.files with
      | [f] => if cfg.log_filename then f.filename ++ ": " ++ c.log else c.log
      | _ => c.log)
    ((c.files.filterMap fun sf =>
      pyTruthy (lookupA sf.filename st.last_commit_mark_for_file)).max?)
    (sortSymbols c.symbols) hb.1 hb.2.1
  simp only [emit_one_commit]
  refine ⟨hc.1, ?_⟩
  rw [List.all_append, List.all_append, hb.2.2, hc.2]
  simp only [Bool.true_and]
  split
  · rw [List.all_eq_true]
    intro t ht
    rcases List.mem_map.mp ht with ⟨e, he, rfl⟩
    rfl
  · rfl

theorem emit_all_good (cfg : EmitCfg) :
    ∀ (commits : List CommitGroup) (st : EmitterState), marksPositive st →
      marksPositive (emit_all cfg st commits).1 ∧
      ((emit_all cfg st commits).2.all opHasNoDelete) = true := by
  intro commits
  induction commits with
  | nil => intro st h; exact ⟨h, rfl⟩
  | cons c rest ih =>
    intro st h
    have h1 := emit_one_commit_good cfg st c h
    have h2 := ih (emit_one_commit cfg st c).2.1 h1.1
    simp only [emit_all]
    exact ⟨h2.1, by rw [List.all_append, h1.2, h2.2]; rfl⟩


theorem lookupA_foldl_pos {cm : Nat} (hcm : 1 ≤ cm) :
    ∀ (entries : List (String × Option Nat × String))
      (b : List (String × Nat)),
      (∀ kv ∈ b, 1 ≤ kv.2) →
      ∀ kv ∈ entries.foldl
        (fun acc e => if e.2.1.isSome then (e.1, cm) :: acc else acc) b,
        1 ≤ kv.2 := by
  intro entries
  induction entries with
  | nil => intro b hb; exact hb
  | cons e rest ih =>
    intro b hb
    simp only [List.foldl_cons]
    apply ih
    intro kv hkv
    by_cases hs : e.2.1.isSome
    · rw [if_pos hs] at hkv
      rcases List.mem_cons.mp hkv with rfl | h2
      · exact hcm
      · exact hb _ h2
    · rw [if_neg hs] at hkv
      exact hb _ hkv

theorem emit_blobs_last_table :
    ∀ (files : List SingleFileCommit) (st : EmitterState),
      (emit_blobs st files).1.last_commit_mark_for_file
        = st.last_commit_mark_for_file := by
  intro files
  induction files with
  | nil => intro st; rfl
  | cons sf rest ih =>
    intro st
    simp only [emit_blobs]
    rw [ih]
    cases hl : lookupA (sf.filename, sf.rev_id) st.blob_marks <;>
      simp [emit_blob, hl]

/-- In every state the emitter reaches from its initial state, all
recorded last-commit marks are positive: the hypothesis of the
parent-linkage theorem holds on every reachable state. -/
theorem emit_all_last_table_positive (cfg : EmitCfg) :
    ∀ (commits : List CommitGroup) (st : EmitterState),
      marksPositive st →
      (∀ kv ∈ st.last_commit_mark_for_file, 1 ≤ kv.2) →
      marksPositive (emit_all cfg st commits).1 ∧
      ∀ kv ∈ (emit_all cfg st commits).1.last_commit_mark_for_file,
        1 ≤ kv.2 := by
  intro commits
  induction commits with
  | nil => intro st h1 h2; exact ⟨h1, h2⟩
  | cons c rest ih =>
    intro st h1 h2
    simp only [emit_all]
    apply ih
    · exact (emit_one_commit_good cfg st c h1).1
    · have hb := emit_blobs_marksPositive c.files st h1
      simp only [emit_one_commit, emit_commit]
      apply lookupA_foldl_pos hb.1.1
      rw [emit_blobs_last_table]
      exact h2

/-- Claim C10: in every run of the emitter from its initial state, every
path operation of every emitted commit is a modification `M mode :mark
path` carrying a positive content-object mark; the delete-marker branch
of `emit_commit` is unreachable from `emit_all`, because every tree entry
carries the mark returned by `emit_blob`, which is always at least 1. -/
theorem claim_C10 (cfg : EmitCfg) (commits : List CommitGroup) :
    ((emit_all cfg initState commits).2.all opHasNoDelete) = true :=
  (emit_all_good cfg commits initState ⟨le_refl 1, by simp [initState]⟩).2


theorem pyTruthy_lookup {tbl : List (String × Nat)}
    (hpos : ∀ kv ∈ tbl, 1 ≤ kv.2) (f : String) :
    pyTruthy (lookupA f tbl) = lookupA f tbl := by
  cases hl : lookupA f tbl with
  | none => rfl
  | some v =>
    have := hpos _ (lookupA_mem hl)
    simp only [pyTruthy]
    rw [if_neg (by omega)]

theorem foldl_max_mem : ∀ (as : List Nat) (a : Nat), as.foldl max a ∈ a :: as := by
  intro as
  induction as with
  | nil => intro a; exact List.mem_singleton.mpr rfl
  | cons b as ih =>
    intro a
    rw [List.foldl_cons]
    have h := ih (max a b)
    rcases List.mem_cons.mp h with he | hm
    · rw [he]
      rcases max_choice a b with hc | hc <;> rw [hc]
      · exact List.mem_cons_self _ _
      · exact List.mem_cons_of_mem _ (List.mem_cons_self _ _)
    · exact List.mem_cons_of_mem _ (List.mem_cons_of_mem _ hm)

theorem max?_mem_nat : ∀ {l : List Nat} {m : Nat}, l.max? = some m → m ∈ l := by
  intro l m h
  cases l with
  | nil => simp [List.max?] at h
  | cons a as =>
    simp only [List.max?] at h
    injection h with h
    exact h ▸ foldl_max_mem as a

theorem lookupA_foldl_last (cm : Nat) :
    ∀ (entries : List (String × Option Nat × String))
      (b : List (String × Nat)) (f : String),
      (f ∈ (entries.filter fun e => e.2.1.isSome).map (fun e => e.1) ∨
        lookupA f b = some cm) →
      lookupA f (entries.foldl
        (fun acc e => if e.2.1.isSome then (e.1, cm) :: acc else acc) b)
        = some cm := by
  intro entries
  induction entries with
  | nil =>
    intro b f h
    rcases h with h | h
    · simp at h
    · simpa using h
  | cons e rest ih =>
    intro b f h
    simp only [List.foldl_cons]
    apply ih
    by_cases hs : e.2.1.isSome
    · rcases h with h | h
      · rw [List.filter_cons_of_pos (by simpa using hs), List.map_cons] at h
        rcases List.mem_cons.mp h with he | hm
        · right
          rw [if_pos hs]
          simp [lookupA, he]
        · left; exact hm
      · right
        rw [if_pos hs]
        simp only [lookupA]
        split_ifs with he
        · rfl
        · exact h
    · rw [if_neg hs]
      rcases h with h | h
      · rw [List.filter_cons_of_neg (by simpa using hs)] at h
        exact Or.inl h
      · exact Or.inr h

theorem emit_blobs_filenames :
    ∀ (files : List SingleFileCommit) (st : EmitterState),
      ((emit_blobs st files).2.2.filter fun e => e.2.1.isSome).map
        (fun e => e.1) = files.map fun sf => sf.filename := by
  intro files
  induction files with
  | nil => intro st; rfl
  | cons sf rest ih =>
    intro st
    simp only [emit_blobs]
    rw [List.filter_cons_of_pos (by simp), List.map_cons, ih]
    rfl

/-- Claim C3: for every emitted commit group, the parent reference equals
the maximum over the last-commit marks recorded for the files the group
touches — `none` when no touched file has a prior commit, the numerically
largest mark when several do (`List.max?`) — and after the commit every
touched file's last-commit table entry holds the new commit's mark.  The
hypothesis restricts to states whose recorded marks are positive, which
holds in every state reachable from the initial state
(`emit_all_last_table_positive`). -/
theorem claim_C3 (cfg : EmitCfg) (st : EmitterState) (c : CommitGroup)
    (hpos : ∀ kv ∈ st.last_commit_mark_for_file, 1 ≤ kv.2) :
    (∃ au lg tree tags,
      StreamOp.commit (emit_one_commit cfg st c).1 au c.date_ts lg
        ((c.files.filterMap fun sf =>
          lookupA sf.filename st.last_commit_mark_for_file).max?)
        tree tags ∈ (emit_one_commit cfg st c).2.2) ∧
    ∀ sf ∈ c.files,
      lookupA sf.filename
        (emit_one_commit cfg st c).2.1.last_commit_mark_for_file
        = some (emit_one_commit cfg st c).1 := by
  have hfm : (c.files.filterMap fun sf =>
      pyTruthy (lookupA sf.filename st.last_commit_mark_for_file)) =
      (c.files.filterMap fun sf =>
        lookupA sf.filename st.last_commit_mark_for_file) :=
    List.filterMap_congr fun sf _ => pyTruthy_lookup hpos sf.filename
  have hpt : pyTruthy ((c.files.filterMap fun sf =>
      lookupA sf.filename st.last_commit_mark_for_file).max?) =
      (c.files.filterMap fun sf =>
        lookupA sf.filename st.last_commit_mark_for_file).max? := by
    cases hm : (c.files.filterMap fun sf =>
        lookupA sf.filename st.last_commit_mark_for_file).max? with
    | none => rfl
    | some v =>
      have hv := max?_mem_nat hm
      rcases List.mem_filterMap.mp hv with ⟨sf, _, hlk⟩
      have := hpos _ (lookupA_mem hlk)
      simp only [pyTruthy]
      rw [if_neg (by omega)]
  constructor
  · refine ⟨resolveAuthor cfg.author_map c.author,
      (match c.files with
        | [f] => if cfg.log_filename then f.filename ++ ": " ++ c.log
          else c.log
        | _ => c.log),
      ((emit_blobs st c.files).2.2.map fun e =>
        match e.2.1 with
        | none => TreeOp.delete e.1
        | some bm => TreeOp.modify e.2.2 bm e.1),
      sortSymbols c.symbols, ?_⟩
    simp only [emit_one_commit, emit_commit, hfm, hpt]
    apply List.mem_append.mpr
    apply Or.inl
    apply List.mem_append.mpr
    apply Or.inr
    exact List.mem_singleton.mpr rfl
  · intro sf hsf
    simp only [emit_one_commit, emit_commit]
    apply lookupA_foldl_last
    left
    rw [emit_blobs_filenames]
    exact List.mem_map.mpr ⟨sf, hsf, rfl⟩


/-- Witness: a commit touching `a.txt` (last commit mark 3) and `c.txt`
(last commit mark 4). -/
theorem claim_C3_witness :
    (∃ au lg tree tags,
      StreamOp.commit
        (emit_one_commit ⟨[], false, false⟩
          ⟨5, [], [("a.txt", 3), ("c.txt", 4)]⟩
          (CommitGroup.mk 20 "alice" "msg" [exA, exC] ∅)).1 au
        (CommitGroup.mk 20 "alice" "msg" [exA, exC] ∅).date_ts lg
        (((CommitGroup.mk 20 "alice" "msg" [exA, exC] ∅).files.filterMap
          fun sf => lookupA sf.filename
            (EmitterState.mk 5 [] [("a.txt", 3), ("c.txt", 4)]).last_commit_mark_for_file).max?)
        tree tags ∈
        (emit_one_commit ⟨[], false, false⟩
          ⟨5, [], [("a.txt", 3), ("c.txt", 4)]⟩
          (CommitGroup.mk 20 "alice" "msg" [exA, exC] ∅)).2.2) ∧
    ∀ sf ∈ (CommitGroup.mk 20 "alice" "msg" [exA, exC] ∅).files,
      lookupA sf.filename
        (emit_one_commit ⟨[], false, false⟩
          ⟨5, [], [("a.txt", 3), ("c.txt", 4)]⟩
          (CommitGroup.mk 20 "alice" "msg" [exA, exC] ∅)).2.1.last_commit_mark_for_file
        = some (emit_one_commit ⟨[], false, false⟩
          ⟨5, [], [("a.txt", 3), ("c.txt", 4)]⟩
          (CommitGroup.mk 20 "alice" "msg" [exA, exC] ∅)).1 :=
  claim_C3 ⟨[], false, false⟩ ⟨5, [], [("a.txt", 3), ("c.txt", 4)]⟩
    (CommitGroup.mk 20 "alice" "msg" [exA, exC] ∅) (by decide)


theorem marksOf_append : ∀ (a b : List StreamOp),
    marksOf (a ++ b) = marksOf a ++ marksOf b := by
  intro a b
  induction a with
  | nil => rfl
  | cons op rest ih => cases op <;> simp [marksOf, ih]

theorem emitsRange_trans {st1 st2 st3 : EmitterState}
    {out1 out2 : List StreamOp} (h1 : emitsRange st1 st2 out1)
    (h2 : emitsRange st2 st3 out2) :
    emitsRange st1 st3 (out1 ++ out2) := by
  obtain ⟨k1, hm1, hn1⟩ := h1
  obtain ⟨k2, hm2, hn2⟩ := h2
  rw [hn1] at hm2
  refine ⟨k1 + k2, ?_, by omega⟩
  rw [marksOf_append, hm1, hm2, List.range'_append_1, Nat.add_comm k2 k1]

theorem emit_blob_emitsRange (st : EmitterState) (fn rv c : String) :
    emitsRange st (emit_blob st fn rv c).2.1 (emit_blob st fn rv c).2.2 := by
  cases hl : lookupA (fn, rv) st.blob_marks with
  | some m => exact ⟨0, by simp [emit_blob, hl, marksOf], by simp [emit_blob, hl]⟩
  | none => exact ⟨1, by simp [emit_blob, hl, marksOf, List.range'], by simp [emit_blob, hl]⟩

theorem emit_blobs_emitsRange :
    ∀ (files : List SingleFileCommit) (st : EmitterState),
      emitsRange st (emit_blobs st files).1 (emit_blobs st files).2.1 := by
  intro files
  induction files with
  | nil => intro st; exact ⟨0, rfl, rfl⟩
  | cons sf rest ih =>
    intro st
    simp only [emit_blobs]
    exact emitsRange_trans (emit_blob_emitsRange st _ _ _) (ih _)

theorem emit_commit_emitsRange (cfg : EmitCfg) (st : EmitterState)
    (entries : List (String × Option Nat × String)) (an : String) (dt : Int)
    (lg : String) (pm : Option Nat) (tags : List String) :
    emitsRange st (emit_commit cfg st entries an dt lg pm tags).2.1
      (emit_commit cfg st entries an dt lg pm tags).2.2 :=
  ⟨1, by simp [emit_commit, marksOf, List.range'], by simp [emit_commit]⟩

theorem marksOf_tagRevs (fs : List SingleFileCommit) (m : Nat) :
    marksOf (fs.map fun sf => StreamOp.tagRev sf.rev_id m) = [] := by
  induction fs with
  | nil => rfl
  | cons sf rest ih => simpa [marksOf] using ih

theorem emit_one_commit_emitsRange (cfg : EmitCfg) (st : EmitterState)
    (c : CommitGroup) :
    emitsRange st (emit_one_commit cfg st c).2.1
      (emit_one_commit cfg st c).2.2 := by
  simp only [emit_one_commit]
  refine emitsRange_trans (emitsRange_trans (emit_blobs_emitsRange c.files st)
    (emit_commit_emitsRange cfg _ _ _ _ _ _ _)) ?_
  refine ⟨0, ?_, rfl⟩
  split
  · rw [marksOf_tagRevs]; rfl
  · rfl

theorem emit_all_emitsRange (cfg : EmitCfg) :
    ∀ (commits : List CommitGroup) (st : EmitterState),
      emitsRange st (emit_all cfg st commits).1
        (emit_all cfg st commits).2 := by
  intro commits
  induction commits with
  | nil => intro st; exact ⟨0, rfl, rfl⟩
  | cons c rest ih =>
    intro st
    simp only [emit_all]
    exact emitsRange_trans (emit_one_commit_emitsRange cfg st c) (ih _)

theorem lookupA_none_iff {α β : Type} [DecidableEq α] {k : α} :
    ∀ {l : List (α × β)}, lookupA k l = none ↔ k ∉ l.map fun kv => kv.1 := by
  intro l
  induction l with
  | nil => simp [lookupA]
  | cons kv rest ih =>
    obtain ⟨k2, v2⟩ := kv
    simp only [lookupA, List.map_cons, List.mem_cons]
    split_ifs with he
    · simp [he]
    · simpa [he] using ih

theorem emit_blob_WF {st : EmitterState} (h : blobTableWF st)
    (fn rv c : String) : blobTableWF (emit_blob st fn rv c).2.1 := by
  obtain ⟨hk, hv, hb⟩ := h
  cases hl : lookupA (fn, rv) st.blob_marks with
  | some m => simpa [emit_blob, hl] using ⟨hk, hv, hb⟩
  | none =>
    simp only [emit_blob, hl]
    refine ⟨?_, ?_, ?_⟩
    · rw [List.map_cons, List.nodup_cons]
      exact ⟨lookupA_none_iff.mp hl, hk⟩
    · rw [List.map_cons, List.nodup_cons]
      refine ⟨fun hmem => ?_, hv⟩
      rcases List.mem_map.mp hmem with ⟨kv, hkv, heq⟩
      have := hb kv hkv
      omega
    · intro kv hkv
      rcases List.mem_cons.mp hkv with rfl | h2
      · show st.next_mark < st.next_mark + 1
        omega
      · have := hb _ h2
        show kv.2 < st.next_mark + 1
        omega

theorem emit_blobs_WF :
    ∀ (files : List SingleFileCommit) (st : EmitterState), blobTableWF st →
      blobTableWF (emit_blobs st files).1 := by
  intro files
  induction files with
  | nil => intro st h; exact h
  | cons sf rest ih =>
    intro st h
    simp only [emit_blobs]
    exact ih _ (emit_blob_WF h _ _ _)

theorem emit_commit_WF {cfg : EmitCfg} {st : EmitterState}
    {entries : List (String × Option Nat × String)} {an : String} {dt : Int}
    {lg : String} {pm : Option Nat} {tags : List String}
    (h : blobTableWF st) :
    blobTableWF (emit_commit cfg st entries an dt lg pm tags).2.1 := by
  obtain ⟨hk, hv, hb⟩ := h
  refine ⟨by simpa [emit_commit] using hk, by simpa [emit_commit] using hv, ?_⟩
  intro kv hkv
  simp only [emit_commit] at hkv ⊢
  have := hb kv hkv
  omega

theorem emit_one_commit_WF (cfg : EmitCfg) (st : EmitterState)
    (c : CommitGroup) (h : blobTableWF st) :
    blobTableWF (emit_one_commit cfg st c).2.1 := by
  simp only [emit_one_commit]
  exact emit_commit_WF (emit_blobs_WF c.files st h)

theorem emit_all_WF (cfg : EmitCfg) :
    ∀ (commits : List CommitGroup) (st : EmitterState), blobTableWF st →
      blobTableWF (emit_all cfg st commits).1 := by
  intro commits
  induction commits with
  | nil => intro st h; exact h
  | cons c rest ih =>
    intro st h
    simp only [emit_all]
    exact ih _ (emit_one_commit_WF cfg st c h)

/-- Claim C4: across one emission run from the initial state, the marks
given to content and commit objects are exactly `1, 2, ..., k` in
emission order (positive, strictly increasing, starting at 1, unique
across blobs and commits); the final `(file, revision) → mark` table has
pairwise-distinct keys and pairwise-distinct marks (an injective mapping
allocated at most once per pair); and a request for an already-allocated
pair returns the recorded mark without allocating or emitting anything. -/
theorem claim_C4 :
    (∀ (cfg : EmitCfg) (commits : List CommitGroup), ∃ k,
      marksOf (emit_all cfg initState commits).2 = List.range' 1 k) ∧
    (∀ (cfg : EmitCfg) (commits : List CommitGroup),
      (((emit_all cfg initState commits).1.blob_marks.map
        fun kv => kv.1).Nodup) ∧
      (((emit_all cfg initState commits).1.blob_marks.map
        fun kv => kv.2).Nodup)) ∧
    (∀ (st : EmitterState) (fn rv c : String) (m : Nat),
      lookupA (fn, rv) st.blob_marks = some m →
      emit_blob st fn rv c = (m, st, [])) := by
  refine ⟨fun cfg commits => ?_, fun cfg commits => ?_, fun st fn rv c m h => ?_⟩
  · obtain ⟨k, hm, _⟩ := emit_all_emitsRange cfg commits initState
    exact ⟨k, hm⟩
  · have h := emit_all_WF cfg commits initState ⟨List.nodup_nil, List.nodup_nil, by simp [initState]⟩
    exact ⟨h.1, h.2.1⟩
  · simp [emit_blob, h]

/-- Witness: re-requesting the pair `(f.txt, 1.1)`, already allocated
mark 2, returns 2 and leaves the state and stream untouched. -/
theorem claim_C4_witness :
    emit_blob ⟨5, [(("f.txt", "1.1"), 2)], []⟩ "f.txt" "1.1" "body" =
      (2, ⟨5, [(("f.txt", "1.1"), 2)], []⟩, []) :=
  claim_C4.2.2 ⟨5, [(("f.txt", "1.1"), 2)], []⟩ "f.txt" "1.1" "body" 2
    (by decide)

end Rcs2Git
